import Mathlib

/-!
Verification of the fast-hadamard-transform wrapper module
(src/fast_hadamard_transform/fast_hadamard_transform_interface.py)
against its natural-language specification.

Numbers are embedded as rationals (exact arithmetic); a tensor of shape
(..., dim) is embedded as its list of rows (the leading batch axes
collapsed, exactly as the source does with reshape(-1, dim)) together
with the metadata value dim taken from the shape.  The compiled CUDA
kernels invoked by the wrappers are not part of the repository sources;
everything derived from them is marked as modelled from the spec.
-/

namespace FHT

/-- Dot product of two rational lists, truncating at the shorter list.
Embeds the inner product performed by F.linear on one row. -/
def dotProd : List ℚ → List ℚ → ℚ
  | [], _ => 0
  | _, [] => 0
  | a :: as, b :: bs => a * b + dotProd as bs

/-- The 2^k x 2^k Hadamard matrix in the Sylvester construction, the
matrix returned by scipy.linalg.hadamard at a power-of-two order:
H(2n) = [[H, H], [H, -H]]. -/
def sylvester : Nat → List (List ℚ)
  | 0 => [[1]]
  | k + 1 =>
    (sylvester k).map (fun r => r ++ r) ++
      (sylvester k).map (fun r => r ++ r.map (fun a => -a))

/-- The row transform of hadamard_transform_ref: zero-pad the row to the
next power of two when needed, multiply by the dense Sylvester matrix
(F.linear with weight hadamard(dim_padded)), multiply by scale, keep the
first dim entries.  log_dim embeds math.ceil(math.log2(dim)). -/
def refRow (dim : Nat) (x : List ℚ) (scale : ℚ) : List ℚ :=
  let log_dim := Nat.clog 2 dim
  let dim_padded := 2 ^ log_dim
  let xp := if dim ≠ dim_padded then x ++ List.replicate (dim_padded - dim) 0 else x
  let out := (sylvester log_dim).map (fun w => dotProd xp w)
  (out.map (fun a => a * scale)).take dim

/-- Failures of the reference path: the ImportError raised when scipy is
absent, and the ValueError raised by math.log2 on a non-positive size. -/
inductive RefError where
  | missingDependency
  | invalidSize
deriving DecidableEq

/-- The guarded module-level import of scipy.linalg.hadamard: loading
never fails; when scipy is absent the name hadamard is bound to None. -/
def hadamardImport (scipyAvailable : Bool) : Option (Nat → List (List ℚ)) :=
  if scipyAvailable then some (fun n => sylvester (Nat.log2 n)) else none

/-- hadamard_transform_ref on a batch: check the scipy import, compute
dim from the shape, fail on dim = 0 (math.log2 domain error), otherwise
transform every row. -/
def hadamard_transform_ref (scipyAvailable : Bool) (dim : Nat)
    (rows : List (List ℚ)) (scale : ℚ) : Except RefError (List (List ℚ)) :=
  match hadamardImport scipyAvailable with
  | none => Except.error RefError.missingDependency
  | some _ =>
    if dim = 0 then Except.error RefError.invalidSize
    else Except.ok (rows.map (fun r => refRow dim r scale))

/-- Modelled from the spec: the Butterfly Core of the missing CUDA
kernel (spec 4.2), written as the recursive construction
H(2M) = [[H, H], [H, -H]] that the spec states the iterative stages
unroll: split the buffer in halves a, b and recurse on a + b and a - b. -/
def fht : Nat → List ℚ → List ℚ
  | 0, x => x
  | k + 1, x =>
    let a := x.take (2 ^ k)
    let b := x.drop (2 ^ k)
    fht k (List.zipWith (· + ·) a b) ++ fht k (List.zipWith (· - ·) a b)

/-- Modelled from the spec: the Size Resolver (spec 4.1), the smallest
k with base * 2^k at least the row length. -/
def resolveK (base length : Nat) : Nat :=
  Nat.clog 2 ((length + base - 1) / base)

/-- Modelled from the spec: the base = 1 fast path of the missing CUDA
kernel (spec 4.5): zero-pad to the resolved power of two, run the
Butterfly Core, multiply by scale, truncate to the original length. -/
def fast_hadamard_transform_row (x : List ℚ) (scale : ℚ) : List ℚ :=
  let k := resolveK 1 x.length
  let xp := x ++ List.replicate (2 ^ k - x.length) 0
  ((fht k xp).map (fun a => a * scale)).take x.length

/-- Modelled from the spec: the invalid-size failure of the fast path. -/
inductive FastError where
  | invalidSize
deriving DecidableEq

/-- Modelled from the spec: the checked Size Resolver (spec 4.1): fails
on length 0 and on lengths beyond base * 2^kmax, otherwise returns the
padded length and the pad amount. -/
def resolve (base length kmax : Nat) : Except FastError (Nat × Nat) :=
  if length = 0 then Except.error FastError.invalidSize
  else
    let k := resolveK base length
    if kmax < k then Except.error FastError.invalidSize
    else Except.ok (base * 2 ^ k, base * 2 ^ k - length)

/-- Modelled from the spec: the base = 1 fast path with its size check
(spec 4.1 and 4.5). -/
def fast_hadamard_transform_checked (kmax : Nat) (x : List ℚ) (scale : ℚ) :
    Except FastError (List ℚ) :=
  match resolve 1 x.length kmax with
  | Except.error e => Except.error e
  | Except.ok _ => Except.ok (fast_hadamard_transform_row x scale)

/-- The context object of the autograd wrappers: every forward pass
stores exactly the fields _hadamard_transform_scale and _inplace. -/
structure AutogradCtx where
  _hadamard_transform_scale : ℚ
  _inplace : Bool
deriving DecidableEq

/-- The number of non-ctx inputs of the forward method of every wrapper:
x, scale and inplace. -/
def numForwardInputs : Nat := 3

/-- HadamardTransformFn.forward: save scale and inplace on ctx, call
the compiled kernel (passed as the parameter K, since the compiled
module is not among the sources). -/
def HadamardTransformFn_forward {α : Type} (K : α → ℚ → Bool → α)
    (x : α) (scale : ℚ) (inplace : Bool) : AutogradCtx × α :=
  (⟨scale, inplace⟩, K x scale inplace)

/-- HadamardTransformFn.backward: return the kernel applied to dout with
the saved scale and inplace, followed by a single None slot. -/
def HadamardTransformFn_backward {α : Type} (K : α → ℚ → Bool → α)
    (ctx : AutogradCtx) (dout : α) : List (Option α) :=
  [some (K dout ctx._hadamard_transform_scale ctx._inplace), none]

/-- HadamardTransform12NFn.forward, same text over its own kernel. -/
def HadamardTransform12NFn_forward {α : Type} (K : α → ℚ → Bool → α)
    (x : α) (scale : ℚ) (inplace : Bool) : AutogradCtx × α :=
  (⟨scale, inplace⟩, K x scale inplace)

/-- HadamardTransform12NFn.backward. -/
def HadamardTransform12NFn_backward {α : Type} (K : α → ℚ → Bool → α)
    (ctx : AutogradCtx) (dout : α) : List (Option α) :=
  [some (K dout ctx._hadamard_transform_scale ctx._inplace), none]

/-- HadamardTransform20NFn.forward. -/
def HadamardTransform20NFn_forward {α : Type} (K : α → ℚ → Bool → α)
    (x : α) (scale : ℚ) (inplace : Bool) : AutogradCtx × α :=
  (⟨scale, inplace⟩, K x scale inplace)

/-- HadamardTransform20NFn.backward. -/
def HadamardTransform20NFn_backward {α : Type} (K : α → ℚ → Bool → α)
    (ctx : AutogradCtx) (dout : α) : List (Option α) :=
  [some (K dout ctx._hadamard_transform_scale ctx._inplace), none]

/-- HadamardTransform28NFn.forward. -/
def HadamardTransform28NFn_forward {α : Type} (K : α → ℚ → Bool → α)
    (x : α) (scale : ℚ) (inplace : Bool) : AutogradCtx × α :=
  (⟨scale, inplace⟩, K x scale inplace)

/-- HadamardTransform28NFn.backward. -/
def HadamardTransform28NFn_backward {α : Type} (K : α → ℚ → Bool → α)
    (ctx : AutogradCtx) (dout : α) : List (Option α) :=
  [some (K dout ctx._hadamard_transform_scale ctx._inplace), none]

/-- HadamardTransform40NFn.forward. -/
def HadamardTransform40NFn_forward {α : Type} (K : α → ℚ → Bool → α)
    (x : α) (scale : ℚ) (inplace : Bool) : AutogradCtx × α :=
  (⟨scale, inplace⟩, K x scale inplace)

/-- HadamardTransform40NFn.backward. -/
def HadamardTransform40NFn_backward {α : Type} (K : α → ℚ → Bool → α)
    (ctx : AutogradCtx) (dout : α) : List (Option α) :=
  [some (K dout ctx._hadamard_transform_scale ctx._inplace), none]

/-- The one generic autodiff operation the spec asks the five wrapper
types to collapse into, parameterized by the kernel. -/
def genericHadamardFn_forward {α : Type} (K : α → ℚ → Bool → α)
    (x : α) (scale : ℚ) (inplace : Bool) : AutogradCtx × α :=
  (⟨scale, inplace⟩, K x scale inplace)

/-- Backward of the generic autodiff operation. -/
def genericHadamardFn_backward {α : Type} (K : α → ℚ → Bool → α)
    (ctx : AutogradCtx) (dout : α) : List (Option α) :=
  [some (K dout ctx._hadamard_transform_scale ctx._inplace), none]

/-- Kronecker product of two matrices given as lists of rows. -/
def kron (A B : List (List ℚ)) : List (List ℚ) :=
  A.flatMap (fun ar => B.map (fun br => ar.flatMap (fun a => br.map (fun b => a * b))))

/-- Modelled from the spec: a fixed symmetric 12 x 12 Hadamard matrix
(spec 4.3: symmetric, M * M = 12 * I, constant data), here the Paley
construction from the field with five elements. -/
def had12 : List (List ℚ) :=
  [[1, -1, 1, 1, 1, 1, 1, 1, 1, 1, 1, 1],
   [-1, -1, 1, -1, 1, -1, 1, -1, 1, -1, 1, -1],
   [1, 1, 1, -1, 1, 1, -1, -1, -1, -1, 1, 1],
   [1, -1, -1, -1, 1, -1, -1, 1, -1, 1, 1, -1],
   [1, 1, 1, 1, 1, -1, 1, 1, -1, -1, -1, -1],
   [1, -1, 1, -1, -1, -1, 1, -1, -1, 1, -1, 1],
   [1, 1, -1, -1, 1, 1, 1, -1, 1, 1, -1, -1],
   [1, -1, -1, 1, 1, -1, -1, -1, 1, -1, -1, 1],
   [1, 1, -1, -1, -1, -1, 1, 1, 1, -1, 1, 1],
   [1, -1, -1, 1, -1, 1, 1, -1, -1, -1, 1, -1],
   [1, 1, 1, 1, -1, -1, -1, -1, 1, 1, 1, -1],
   [1, -1, 1, -1, -1, 1, -1, 1, 1, -1, -1, -1]]

/-- Modelled from the spec: the Variant Composer pipeline (spec 4.4 and
4.5) for base factor variants: pad to the resolved base * 2^k, multiply
by the Kronecker product M ⊗ H(2^k) that spec 4.4 states the two-pass
implementation realizes, multiply by scale, truncate. -/
def variantRow (M : List (List ℚ)) (base : Nat) (x : List ℚ) (scale : ℚ) :
    List ℚ :=
  let k := resolveK base x.length
  let P := base * 2 ^ k
  let xp := x ++ List.replicate (P - x.length) 0
  (((kron M (sylvester k)).map (fun w => dotProd xp w)).map
      (fun a => a * scale)).take x.length

/-- Modelled from the spec: the row transform of the base 12 variant. -/
def hadamard_transform_12N_row (x : List ℚ) (scale : ℚ) : List ℚ :=
  variantRow had12 12 x scale

/-- Storage-level embedding of hadamard_transform_ref: the store is the
list of allocated buffers, a buffer is addressed by its index.  Each
tensor-producing torch call in the source (F.pad, F.linear, the scale
multiply) appends a fresh buffer; reshape and the final slice are views
of the buffer they come from.  Returns the new store, the storage index
the result is a view of, and the logical contents of the result. -/
def hadamard_transform_ref_store (scipyAvailable : Bool)
    (store : List (List (List ℚ))) (sid dim : Nat) (scale : ℚ) :
    Except RefError (List (List (List ℚ)) × Nat × List (List ℚ)) :=
  match hadamardImport scipyAvailable with
  | none => Except.error RefError.missingDependency
  | some _ =>
    if dim = 0 then Except.error RefError.invalidSize
    else
      let rows := store.getD sid []
      let log_dim := Nat.clog 2 dim
      let dim_padded := 2 ^ log_dim
      let padded :=
        if dim ≠ dim_padded then
          (store ++ [rows.map (fun r => r ++ List.replicate (dim_padded - dim) 0)],
            store.length)
        else (store, sid)
      let lin := (padded.1.getD padded.2 []).map
        (fun r => (sylvester log_dim).map (fun w => dotProd r w))
      let store2 := padded.1 ++ [lin]
      let scaled := lin.map (fun r => r.map (fun a => a * scale))
      let store3 := store2 ++ [scaled]
      Except.ok (store3, store2.length, scaled.map (fun r => r.take dim))

theorem dotProd_nil_right (a : List ℚ) : dotProd a [] = 0 := by
  cases a <;> rfl

theorem dotProd_append {a c : List ℚ} (b d : List ℚ)
    (h : a.length = c.length) :
    dotProd (a ++ b) (c ++ d) = dotProd a c + dotProd b d := by
  induction a generalizing c with
  | nil =>
    cases c with
    | nil => simp [dotProd]
    | cons y ys => simp at h
  | cons x xs ih =>
    cases c with
    | nil => simp at h
    | cons y ys =>
      have h' : xs.length = ys.length := by simpa using h
      simp only [List.cons_append, dotProd]
      rw [show xs.append b = xs ++ b from rfl, show ys.append d = ys ++ d from rfl, ih h']
      ring

theorem dotProd_zipWith_add_left {a b : List ℚ} (c : List ℚ)
    (h : a.length = b.length) :
    dotProd (List.zipWith (· + ·) a b) c = dotProd a c + dotProd b c := by
  induction a generalizing b c with
  | nil =>
    cases b with
    | nil => simp [dotProd]
    | cons y ys => simp at h
  | cons x xs ih =>
    cases b with
    | nil => simp at h
    | cons y ys =>
      cases c with
      | nil => simp [dotProd_nil_right]
      | cons z zs =>
        simp only [List.zipWith_cons_cons, dotProd, ih _ (by simpa using h)]
        ring

theorem dotProd_zipWith_sub_left {a b : List ℚ} (c : List ℚ)
    (h : a.length = b.length) :
    dotProd (List.zipWith (· - ·) a b) c = dotProd a c - dotProd b c := by
  induction a generalizing b c with
  | nil =>
    cases b with
    | nil => simp [dotProd]
    | cons y ys => simp at h
  | cons x xs ih =>
    cases b with
    | nil => simp at h
    | cons y ys =>
      cases c with
      | nil => simp [dotProd_nil_right]
      | cons z zs =>
        simp only [List.zipWith_cons_cons, dotProd, ih _ (by simpa using h)]
        ring

theorem dotProd_neg_right (a : List ℚ) :
    ∀ b : List ℚ, dotProd a (b.map (fun v => -v)) = -dotProd a b := by
  induction a with
  | nil => intro b; simp [dotProd]
  | cons x xs ih =>
    intro b
    cases b with
    | nil => simp [dotProd]
    | cons y ys =>
      simp only [List.map_cons, dotProd, ih]
      ring

theorem dotProd_smul_left (c : ℚ) (a : List ℚ) :
    ∀ b : List ℚ, dotProd (a.map (fun v => c * v)) b = c * dotProd a b := by
  induction a with
  | nil => intro b; simp [dotProd]
  | cons x xs ih =>
    intro b
    cases b with
    | nil => simp [dotProd_nil_right]
    | cons y ys =>
      simp only [List.map_cons, dotProd, ih]
      ring

theorem dotProd_combo_left (p q : ℚ) {x y : List ℚ} (w : List ℚ)
    (h : x.length = y.length) :
    dotProd (List.zipWith (fun u v => p * u + q * v) x y) w
      = p * dotProd x w + q * dotProd y w := by
  induction x generalizing y w with
  | nil =>
    cases y with
    | nil => simp [dotProd]
    | cons b bs => simp at h
  | cons a as ih =>
    cases y with
    | nil => simp at h
    | cons b bs =>
      cases w with
      | nil => simp [dotProd_nil_right]
      | cons z zs =>
        simp only [List.zipWith_cons_cons, dotProd, ih _ (by simpa using h)]
        ring

theorem sylvester_length (k : Nat) : (sylvester k).length = 2 ^ k := by
  induction k with
  | zero => rfl
  | succ k ih =>
    simp only [sylvester, List.length_append, List.length_map, ih]
    rw [pow_succ]
    omega

theorem sylvester_mem_length {k : Nat} {r : List ℚ} (hr : r ∈ sylvester k) :
    r.length = 2 ^ k := by
  induction k generalizing r with
  | zero => simp [sylvester] at hr; simp [hr]
  | succ k ih =>
    simp only [sylvester, List.mem_append, List.mem_map] at hr
    rcases hr with ⟨s, hs, rfl⟩ | ⟨s, hs, rfl⟩ <;>
      simp [ih hs, pow_succ] <;> omega

theorem fht_length : ∀ (k : Nat) (x : List ℚ), x.length = 2 ^ k →
    (fht k x).length = 2 ^ k := by
  intro k
  induction k with
  | zero => intro x hx; simpa [fht] using hx
  | succ k ih =>
    intro x hx
    have h2 : 2 ^ (k + 1) = 2 ^ k + 2 ^ k := by rw [pow_succ]; omega
    have ht : (x.take (2 ^ k)).length = 2 ^ k := by
      simp [List.length_take, hx, h2]
    have hd : (x.drop (2 ^ k)).length = 2 ^ k := by
      simp [List.length_drop, hx]; omega
    simp only [fht, List.length_append]
    rw [ih _ (by simp [List.length_zipWith, ht, hd]),
      ih _ (by simp [List.length_zipWith, ht, hd])]
    omega

theorem fht_eq_sylvester : ∀ (k : Nat) (x : List ℚ), x.length = 2 ^ k →
    fht k x = (sylvester k).map (fun w => dotProd x w) := by
  intro k
  induction k with
  | zero =>
    intro x hx
    obtain ⟨a, rfl⟩ := List.length_eq_one.mp (by simpa using hx)
    simp [fht, sylvester, dotProd]
  | succ k ih =>
    intro x hx
    have h2 : 2 ^ (k + 1) = 2 ^ k + 2 ^ k := by rw [pow_succ]; omega
    have ht : (x.take (2 ^ k)).length = 2 ^ k := by
      simp [List.length_take, hx, h2]
    have hd : (x.drop (2 ^ k)).length = 2 ^ k := by
      simp [List.length_drop, hx]; omega
    have hsplit : x.take (2 ^ k) ++ x.drop (2 ^ k) = x := List.take_append_drop _ x
    have hzl : (List.zipWith (· + ·) (x.take (2 ^ k)) (x.drop (2 ^ k))).length = 2 ^ k := by
      simp [List.length_zipWith, ht, hd]
    have hzl2 : (List.zipWith (· - ·) (x.take (2 ^ k)) (x.drop (2 ^ k))).length = 2 ^ k := by
      simp [List.length_zipWith, ht, hd]
    simp only [fht, ih _ hzl, ih _ hzl2, sylvester, List.map_append, List.map_map]
    congr 1
    · apply List.map_congr_left
      intro r hr
      have hrl : r.length = 2 ^ k := sylvester_mem_length hr
      have hx2 : dotProd (x.take (2 ^ k) ++ x.drop (2 ^ k)) (r ++ r)
          = dotProd (x.take (2 ^ k)) r + dotProd (x.drop (2 ^ k)) r :=
        dotProd_append _ _ (ht.trans hrl.symm)
      rw [hsplit] at hx2
      simp only [Function.comp]
      rw [dotProd_zipWith_add_left _ (ht.trans hd.symm)]
      exact hx2.symm
    · apply List.map_congr_left
      intro r hr
      have hrl : r.length = 2 ^ k := sylvester_mem_length hr
      have hx2 : dotProd (x.take (2 ^ k) ++ x.drop (2 ^ k)) (r ++ r.map (fun v => -v))
          = dotProd (x.take (2 ^ k)) r + dotProd (x.drop (2 ^ k)) (r.map (fun v => -v)) :=
        dotProd_append _ _ (ht.trans hrl.symm)
      rw [hsplit, dotProd_neg_right] at hx2
      simp only [Function.comp]
      rw [dotProd_zipWith_sub_left _ (ht.trans hd.symm), hx2]
      ring

theorem zipWith_map_same {α β : Type} (op : β → β → β) (f g : α → β)
    (l : List α) :
    List.zipWith op (l.map f) (l.map g) = l.map (fun w => op (f w) (g w)) := by
  induction l with
  | nil => rfl
  | cons x xs ih => simp [ih]

theorem fht_zipWith_add {k : Nat} {a b : List ℚ}
    (ha : a.length = 2 ^ k) (hb : b.length = 2 ^ k) :
    fht k (List.zipWith (· + ·) a b)
      = List.zipWith (· + ·) (fht k a) (fht k b) := by
  rw [fht_eq_sylvester k _ (by simp [List.length_zipWith, ha, hb]),
    fht_eq_sylvester k a ha, fht_eq_sylvester k b hb, zipWith_map_same]
  apply List.map_congr_left
  intro r hr
  exact dotProd_zipWith_add_left r (ha.trans hb.symm)

theorem fht_smul {k : Nat} (c : ℚ) {x : List ℚ} (hx : x.length = 2 ^ k) :
    fht k (x.map (fun v => c * v)) = (fht k x).map (fun v => c * v) := by
  rw [fht_eq_sylvester k _ (by simp [hx]), fht_eq_sylvester k x hx,
    List.map_map]
  apply List.map_congr_left
  intro r hr
  exact dotProd_smul_left c x r

theorem fht_zipWith_sub {k : Nat} {a b : List ℚ}
    (ha : a.length = 2 ^ k) (hb : b.length = 2 ^ k) :
    fht k (List.zipWith (· - ·) a b)
      = List.zipWith (· - ·) (fht k a) (fht k b) := by
  rw [fht_eq_sylvester k _ (by simp [List.length_zipWith, ha, hb]),
    fht_eq_sylvester k a ha, fht_eq_sylvester k b hb, zipWith_map_same]
  apply List.map_congr_left
  intro r hr
  exact dotProd_zipWith_sub_left r (ha.trans hb.symm)

theorem zip_add_of_add_sub {a b : List ℚ} (h : a.length = b.length) :
    List.zipWith (· + ·) (List.zipWith (· + ·) a b) (List.zipWith (· - ·) a b)
      = a.map (fun v => 2 * v) := by
  induction a generalizing b with
  | nil => simp
  | cons x xs ih =>
    cases b with
    | nil => simp at h
    | cons y ys =>
      simp only [List.zipWith_cons_cons, List.map_cons,
        ih (show xs.length = ys.length by simpa using h)]
      congr 1
      ring

theorem zip_sub_of_add_sub {a b : List ℚ} (h : a.length = b.length) :
    List.zipWith (· - ·) (List.zipWith (· + ·) a b) (List.zipWith (· - ·) a b)
      = b.map (fun v => 2 * v) := by
  induction a generalizing b with
  | nil =>
    cases b with
    | nil => simp
    | cons y ys => simp at h
  | cons x xs ih =>
    cases b with
    | nil => simp at h
    | cons y ys =>
      simp only [List.zipWith_cons_cons, List.map_cons,
        ih (show xs.length = ys.length by simpa using h)]
      congr 1
      ring

theorem fht_fht : ∀ (k : Nat) (x : List ℚ), x.length = 2 ^ k →
    fht k (fht k x) = x.map (fun v => (2 : ℚ) ^ k * v) := by
  intro k
  induction k with
  | zero =>
    intro x hx
    simp [fht]
  | succ k ih =>
    intro x hx
    have h2 : 2 ^ (k + 1) = 2 ^ k + 2 ^ k := by rw [pow_succ]; omega
    have ht : (x.take (2 ^ k)).length = 2 ^ k := by
      simp [List.length_take, hx, h2]
    have hd : (x.drop (2 ^ k)).length = 2 ^ k := by
      simp [List.length_drop, hx]; omega
    have hlen : ∀ u v : List ℚ, u.length = 2 ^ k → v.length = 2 ^ k →
        (List.zipWith (· + ·) u v).length = 2 ^ k := by
      intro u v hu hv; simp [List.length_zipWith, hu, hv]
    have hlen2 : ∀ u v : List ℚ, u.length = 2 ^ k → v.length = 2 ^ k →
        (List.zipWith (· - ·) u v).length = 2 ^ k := by
      intro u v hu hv; simp [List.length_zipWith, hu, hv]
    have hs := hlen _ _ ht hd
    have hdd := hlen2 _ _ ht hd
    have hfs : (fht k (List.zipWith (· + ·) (x.take (2 ^ k)) (x.drop (2 ^ k)))).length = 2 ^ k :=
      fht_length k _ hs
    have hfd : (fht k (List.zipWith (· - ·) (x.take (2 ^ k)) (x.drop (2 ^ k)))).length = 2 ^ k :=
      fht_length k _ hdd
    conv_lhs => rw [fht]
    rw [fht]
    rw [List.take_left' hfs, List.drop_left' hfs]
    rw [← fht_zipWith_add hs hdd, ← fht_zipWith_sub hs hdd]
    rw [zip_add_of_add_sub (ht.trans hd.symm), zip_sub_of_add_sub (ht.trans hd.symm)]
    rw [fht_smul (2 : ℚ) ht, fht_smul (2 : ℚ) hd]
    rw [fht_smul (2 : ℚ) (fht_length k _ ht), fht_smul (2 : ℚ) (fht_length k _ hd)]
    rw [ih _ ht, ih _ hd]
    conv_rhs => rw [← List.take_append_drop (2 ^ k) x]
    rw [List.map_append, List.map_map, List.map_map]
    congr 1 <;>
      · apply List.map_congr_left
        intro v hv
        simp only [Function.comp]
        ring

theorem resolveK_one (L : Nat) : resolveK 1 L = Nat.clog 2 L := by
  simp [resolveK]

theorem le_two_pow_clog (dim : Nat) : dim ≤ 2 ^ Nat.clog 2 dim :=
  Nat.le_pow_clog (by norm_num) dim

theorem refRow_eq_formula (dim : Nat) (x : List ℚ) (scale : ℚ) :
    refRow dim x scale
      = (((sylvester (Nat.clog 2 dim)).map
            (fun w =>
              dotProd (x ++ List.replicate (2 ^ Nat.clog 2 dim - dim) 0) w)).map
          (fun a => a * scale)).take dim := by
  simp only [refRow]
  by_cases h : dim = 2 ^ Nat.clog 2 dim
  · rw [if_neg (fun hh => hh h)]
    rw [← h]
    simp
  · rw [if_pos h]

theorem refRow_length (dim : Nat) (x : List ℚ) (scale : ℚ) :
    (refRow dim x scale).length = dim := by
  rw [refRow_eq_formula]
  simp only [List.length_take, List.length_map, sylvester_length]
  exact Nat.min_eq_left (le_two_pow_clog dim)

theorem refRow_pow2_eq_fht (k : Nat) (x : List ℚ) (hx : x.length = 2 ^ k) :
    refRow (2 ^ k) x 1 = fht k x := by
  have hk : Nat.clog 2 (2 ^ k) = k := Nat.clog_pow 2 k (by norm_num)
  rw [refRow_eq_formula, hk, Nat.sub_self]
  rw [show x ++ List.replicate 0 (0 : ℚ) = x from by simp]
  rw [← fht_eq_sylvester k x hx]
  have : (fun a : ℚ => a * 1) = fun a : ℚ => a := by
    funext a
    exact mul_one a
  rw [this, List.map_id']
  exact List.take_of_length_le (le_of_eq (fht_length k x hx))

theorem zipWith_combo_pad (p q : ℚ) {x y : List ℚ} (m : Nat)
    (h : x.length = y.length) :
    List.zipWith (fun u v => p * u + q * v) x y ++ List.replicate m 0
      = List.zipWith (fun u v => p * u + q * v)
          (x ++ List.replicate m 0) (y ++ List.replicate m 0) := by
  rw [List.zipWith_append _ _ _ _ _ h]
  congr 1
  induction m with
  | zero => rfl
  | succ n ih =>
    simp only [List.replicate_succ, List.zipWith_cons_cons, ← ih]
    norm_num

/-- C2 (amended): for every row and every scale, the base 1 fast path
equals hadamard_transform_ref on the same input and scale, exactly over
the exact-arithmetic embedding. -/
theorem C2_fast_path_matches_ref (x : List ℚ) (scale : ℚ) :
    fast_hadamard_transform_row x scale = refRow x.length x scale := by
  have hle := le_two_pow_clog x.length
  have hlen : (x ++ List.replicate (2 ^ Nat.clog 2 x.length - x.length) (0 : ℚ)).length
      = 2 ^ Nat.clog 2 x.length := by
    simp only [List.length_append, List.length_replicate]
    omega
  simp only [fast_hadamard_transform_row, resolveK_one]
  rw [fht_eq_sylvester _ _ hlen, refRow_eq_formula]

theorem clog_two_three : Nat.clog 2 3 = 2 := by
  have h1 : Nat.clog 2 3 ≤ 2 := (Nat.le_pow_iff_clog_le (by norm_num)).mp (by norm_num)
  have h2 : 1 < Nat.clog 2 3 := (Nat.pow_lt_iff_lt_clog (by norm_num)).mp (by norm_num)
  omega

theorem clog_two_twelve : Nat.clog 2 12 = 4 := by
  have h1 : Nat.clog 2 12 ≤ 4 := (Nat.le_pow_iff_clog_le (by norm_num)).mp (by norm_num)
  have h2 : 3 < Nat.clog 2 12 := (Nat.pow_lt_iff_lt_clog (by norm_num)).mp (by norm_num)
  omega

theorem resolveK_twelve_twelve : resolveK 12 12 = 0 := by
  have : (12 + 12 - 1) / 12 = 1 := by norm_num
  rw [resolveK, this, Nat.clog_one_right]

/-- C2 counterexample: the base 12 variant on a row of length 12 does
not match hadamard_transform_ref, which pads to a power of two. -/
theorem C2_counterexample_base12 :
    hadamard_transform_12N_row [0, 1, 0, 0, 0, 0, 0, 0, 0, 0, 0, 0] 1
      ≠ refRow 12 [0, 1, 0, 0, 0, 0, 0, 0, 0, 0, 0, 0] 1 := by
  have hl : (([0, 1, 0, 0, 0, 0, 0, 0, 0, 0, 0, 0] : List ℚ)).length = 12 := by decide
  simp only [hadamard_transform_12N_row, variantRow, refRow_eq_formula, hl,
    resolveK_twelve_twelve, clog_two_twelve]
  norm_num [sylvester, kron, had12, dotProd, List.replicate]

/-- C4 (amended): for every row x whose length is a power of two (so
that no information is lost to truncation) and scale 1, applying the
plain transform twice yields padded_length times x, the padded length
being the row length itself. -/
theorem C4_ref_involution_pow2 (k : Nat) (x : List ℚ) (h : x.length = 2 ^ k) :
    (hadamard_transform_ref true (2 ^ k) [x] 1).bind
        (fun rows => hadamard_transform_ref true (2 ^ k) rows 1)
      = Except.ok [x.map (fun v => (2 : ℚ) ^ k * v)] := by
  have hP : ¬((2 : ℕ) ^ k = 0) := by positivity
  simp only [hadamard_transform_ref, hadamardImport, if_pos, if_neg hP,
    List.map_cons, List.map_nil, Except.bind]
  rw [refRow_pow2_eq_fht k x h,
    refRow_pow2_eq_fht k _ (fht_length k x h), fht_fht k x h]

/-- C4 witness at k = 1, x = [1, 2]. -/
theorem C4_ref_involution_pow2_witness :
    (hadamard_transform_ref true (2 ^ 1) [[1, 2]] 1).bind
        (fun rows => hadamard_transform_ref true (2 ^ 1) rows 1)
      = Except.ok [List.map (fun v => (2 : ℚ) ^ 1 * v) [1, 2]] :=
  C4_ref_involution_pow2 1 [1, 2] (by decide)

/-- C4 counterexample: at the non-power-of-two length 3 the double
transform is not padded_length times the input: the code gives
[1, -1, 3] where the claim demands [0, 0, 4]. -/
theorem C4_counterexample :
    refRow 3 (refRow 3 [0, 0, 1] 1) 1 ≠ [0, 0, (4 : ℚ)] := by
  simp only [refRow_eq_formula, clog_two_three]
  norm_num [sylvester, dotProd, List.replicate]

/-- Integer mirror of had12, used to check the Hadamard-matrix laws by
computation. -/
def had12Z : List (List ℤ) :=
  [[1, -1, 1, 1, 1, 1, 1, 1, 1, 1, 1, 1],
   [-1, -1, 1, -1, 1, -1, 1, -1, 1, -1, 1, -1],
   [1, 1, 1, -1, 1, 1, -1, -1, -1, -1, 1, 1],
   [1, -1, -1, -1, 1, -1, -1, 1, -1, 1, 1, -1],
   [1, 1, 1, 1, 1, -1, 1, 1, -1, -1, -1, -1],
   [1, -1, 1, -1, -1, -1, 1, -1, -1, 1, -1, 1],
   [1, 1, -1, -1, 1, 1, 1, -1, 1, 1, -1, -1],
   [1, -1, -1, 1, 1, -1, -1, -1, 1, -1, -1, 1],
   [1, 1, -1, -1, -1, -1, 1, 1, 1, -1, 1, 1],
   [1, -1, -1, 1, -1, 1, 1, -1, -1, -1, 1, -1],
   [1, 1, 1, 1, -1, -1, -1, -1, 1, 1, 1, -1],
   [1, -1, 1, -1, -1, 1, -1, 1, 1, -1, -1, -1]]

/-- Transpose of a 12 x 12 integer matrix given as rows. -/
def transposeZ12 (A : List (List ℤ)) : List (List ℤ) :=
  (List.range 12).map (fun j => A.map (fun r => r.getD j 0))

/-- Integer dot product. -/
def dotZ : List ℤ → List ℤ → ℤ
  | [], _ => 0
  | _, [] => 0
  | a :: as, b :: bs => a * b + dotZ as bs

/-- Product of two 12 x 12 integer matrices given as rows. -/
def matMulZ12 (A B : List (List ℤ)) : List (List ℤ) :=
  A.map (fun r => (transposeZ12 B).map (fun c => dotZ r c))

/-- had12 is symmetric, as spec 4.3 demands of the base kernels. -/
theorem had12Z_symm : transposeZ12 had12Z = had12Z := by decide

/-- had12 times itself is 12 times the identity, the law spec 4.3
demands of the base kernels. -/
theorem had12Z_sq :
    matMulZ12 had12Z had12Z
      = (List.range 12).map
          (fun i => (List.range 12).map (fun j => if i = j then (12 : ℤ) else 0)) := by
  decide

/-- The rational matrix had12 is the cast of its integer mirror. -/
theorem had12_eq_cast :
    had12 = had12Z.map (fun r => r.map (fun a => (a : ℚ))) := by
  norm_num [had12, had12Z]

/-- C1: the backward pass of the wrapper applies the forward kernel to
the upstream gradient with the scale and inplace saved by forward, but
it returns only two gradient slots where forward has three inputs
(x, scale, inplace); the expected slot count is violated. -/
theorem C1_backward_slots :
    ∀ (α : Type) (K : α → ℚ → Bool → α) (x dout : α) (scale : ℚ) (inplace : Bool),
      HadamardTransformFn_backward K
          (HadamardTransformFn_forward K x scale inplace).1 dout
        = [some (K dout scale inplace), none]
      ∧ (HadamardTransformFn_backward K
            (HadamardTransformFn_forward K x scale inplace).1 dout).length
          ≠ numForwardInputs := by
  intro α K x dout scale inplace
  exact ⟨rfl, by simp [HadamardTransformFn_backward, numForwardInputs]⟩

/-- C3: with scipy present and a positive dim, hadamard_transform_ref
maps refRow over the rows; the padded size 2 ^ clog 2 dim is the least
power of two at least dim, equal to dim exactly when dim is a power of
two (so no padding happens then); each row is zero-padded, multiplied
by the dense Sylvester matrix, scaled, truncated back to dim entries,
and the output shape equals the input shape. -/
theorem C3_ref_padding_shape (dim : Nat) (rows : List (List ℚ)) (scale : ℚ)
    (hdim : 0 < dim) (hwf : ∀ r ∈ rows, r.length = dim) :
    hadamard_transform_ref true dim rows scale
        = Except.ok (rows.map (fun r => refRow dim r scale))
      ∧ dim ≤ 2 ^ Nat.clog 2 dim
      ∧ (∀ m k, m = 2 ^ k → dim ≤ m → 2 ^ Nat.clog 2 dim ≤ m)
      ∧ ((∃ k, dim = 2 ^ k) → 2 ^ Nat.clog 2 dim = dim)
      ∧ (∀ r ∈ rows,
          refRow dim r scale
              = (((sylvester (Nat.clog 2 dim)).map
                    (fun w =>
                      dotProd (r ++ List.replicate (2 ^ Nat.clog 2 dim - dim) 0) w)).map
                  (fun a => a * scale)).take dim
            ∧ (refRow dim r scale).length = r.length) := by
  have h0 : ¬(dim = 0) := by omega
  refine ⟨?_, le_two_pow_clog dim, ?_, ?_, ?_⟩
  · simp [hadamard_transform_ref, hadamardImport, h0]
  · intro m k hm hdm
    subst hm
    exact Nat.pow_le_pow_right (by norm_num)
      ((Nat.le_pow_iff_clog_le (by norm_num)).mp hdm)
  · rintro ⟨k, rfl⟩
    rw [Nat.clog_pow 2 k (by norm_num)]
  · intro r hr
    exact ⟨refRow_eq_formula dim r scale, by rw [refRow_length, hwf r hr]⟩

/-- C3 witness at dim = 3, rows = [[1, 2, 3]], scale = 2. -/
theorem C3_ref_padding_shape_witness :
    hadamard_transform_ref true 3 [[1, 2, 3]] 2
        = Except.ok ([[(1 : ℚ), 2, 3]].map (fun r => refRow 3 r 2))
      ∧ 3 ≤ 2 ^ Nat.clog 2 3
      ∧ (∀ m k, m = 2 ^ k → 3 ≤ m → 2 ^ Nat.clog 2 3 ≤ m)
      ∧ ((∃ k, 3 = 2 ^ k) → 2 ^ Nat.clog 2 3 = 3)
      ∧ (∀ r ∈ [[(1 : ℚ), 2, 3]],
          refRow 3 r 2
              = (((sylvester (Nat.clog 2 3)).map
                    (fun w =>
                      dotProd (r ++ List.replicate (2 ^ Nat.clog 2 3 - 3) 0) w)).map
                  (fun a => a * 2)).take 3
            ∧ (refRow 3 r 2).length = r.length) :=
  C3_ref_padding_shape 3 [[1, 2, 3]] 2 (by norm_num) (by decide)

/-- C5: the reference transform is linear in the row, for any fixed
scale, exactly over the exact-arithmetic embedding. -/
theorem C5_ref_linear (p q : ℚ) (dim : Nat) (x y : List ℚ) (scale : ℚ)
    (h : x.length = y.length) :
    refRow dim (List.zipWith (fun u v => p * u + q * v) x y) scale
      = List.zipWith (fun u v => p * u + q * v)
          (refRow dim x scale) (refRow dim y scale) := by
  rw [refRow_eq_formula, refRow_eq_formula, refRow_eq_formula,
    ← List.take_zipWith]
  congr 1
  rw [List.map_map, List.map_map, List.map_map, zipWith_map_same]
  apply List.map_congr_left
  intro w hw
  simp only [Function.comp]
  rw [zipWith_combo_pad p q _ h,
    dotProd_combo_left p q w (by simp [h])]
  ring

/-- C5 witness at p = 2, q = 3, dim = 2, x = [1, 0], y = [0, 1],
scale = 5. -/
theorem C5_ref_linear_witness :
    refRow 2 (List.zipWith (fun u v => 2 * u + 3 * v) [(1 : ℚ), 0] [0, 1]) 5
      = List.zipWith (fun u v => 2 * u + 3 * v)
          (refRow 2 [(1 : ℚ), 0] 5) (refRow 2 [0, 1] 5) :=
  C5_ref_linear 2 3 2 [1, 0] [0, 1] 5 (by decide)

/-- C6: when scipy is absent the module still loads (the import is
bound to None) and every call of hadamard_transform_ref fails with the
missing-dependency error, uniformly in the input, i.e. before any
computation on it. -/
theorem C6_missing_scipy (dim : Nat) (rows : List (List ℚ)) (scale : ℚ) :
    hadamard_transform_ref false dim rows scale
        = Except.error RefError.missingDependency
      ∧ hadamardImport false = none :=
  ⟨rfl, rfl⟩

/-- C7: a call with row length 0 (lengths are nonnegative, so length at
most 0 means 0) fails synchronously with the invalid-size error, both
on the reference path (the ValueError from math.log2) and on the
spec-modelled checked fast path, before any transform is computed. -/
theorem C7_zero_length_invalid (rows : List (List ℚ)) (scale : ℚ) (kmax : Nat) :
    hadamard_transform_ref true 0 rows scale = Except.error RefError.invalidSize
      ∧ fast_hadamard_transform_checked kmax [] scale
          = Except.error FastError.invalidSize :=
  ⟨rfl, rfl⟩

/-- C9: each of the five autodiff wrapper types equals the one generic
operation instantiated at its kernel, in both forward and backward. -/
theorem C9_wrappers_collapse :
    ∀ (α : Type) (K : α → ℚ → Bool → α) (x dout : α) (scale : ℚ)
      (inplace : Bool) (ctx : AutogradCtx),
      HadamardTransformFn_forward K x scale inplace
          = genericHadamardFn_forward K x scale inplace
        ∧ HadamardTransformFn_backward K ctx dout
            = genericHadamardFn_backward K ctx dout
        ∧ HadamardTransform12NFn_forward K x scale inplace
            = genericHadamardFn_forward K x scale inplace
        ∧ HadamardTransform12NFn_backward K ctx dout
            = genericHadamardFn_backward K ctx dout
        ∧ HadamardTransform20NFn_forward K x scale inplace
            = genericHadamardFn_forward K x scale inplace
        ∧ HadamardTransform20NFn_backward K ctx dout
            = genericHadamardFn_backward K ctx dout
        ∧ HadamardTransform28NFn_forward K x scale inplace
            = genericHadamardFn_forward K x scale inplace
        ∧ HadamardTransform28NFn_backward K ctx dout
            = genericHadamardFn_backward K ctx dout
        ∧ HadamardTransform40NFn_forward K x scale inplace
            = genericHadamardFn_forward K x scale inplace
        ∧ HadamardTransform40NFn_backward K ctx dout
            = genericHadamardFn_backward K ctx dout := by
  intro α K x dout scale inplace ctx
  exact ⟨rfl, rfl, rfl, rfl, rfl, rfl, rfl, rfl, rfl, rfl⟩

/-- C10: on rows of length 1 the reference transform is multiplication
by scale: the padded length resolves to 1 and the 1 x 1 Hadamard matrix
is the identity. -/
theorem C10_dim_one (rows : List (List ℚ)) (scale : ℚ)
    (hwf : ∀ r ∈ rows, r.length = 1) :
    hadamard_transform_ref true 1 rows scale
        = Except.ok (rows.map (fun r => r.map (fun v => scale * v)))
      ∧ 2 ^ Nat.clog 2 1 = 1 := by
  constructor
  · simp only [hadamard_transform_ref, hadamardImport, if_true]
    rw [if_neg (by norm_num : ¬(1 = 0))]
    congr 1
    apply List.map_congr_left
    intro r hr
    obtain ⟨a, rfl⟩ := List.length_eq_one.mp (hwf r hr)
    rw [refRow_eq_formula, Nat.clog_one_right]
    norm_num [sylvester, dotProd]
    ring
  · rw [Nat.clog_one_right]
    rfl

/-- C10 witness at rows = [[3]], scale = 5. -/
theorem C10_dim_one_witness :
    hadamard_transform_ref true 1 [[3]] 5
        = Except.ok ([[(3 : ℚ)]].map (fun r => r.map (fun v => 5 * v)))
      ∧ 2 ^ Nat.clog 2 1 = 1 :=
  C10_dim_one [[3]] 5 (by decide)

theorem getD_concat_self {α : Type} (l : List α) (a d : α) :
    (l ++ [a]).getD l.length d = a := by
  simp [List.getD, List.getElem?_concat_length]

/-- C8: at the storage level, hadamard_transform_ref leaves every
pre-existing buffer (the input included) untouched and returns a view
of a buffer freshly allocated during the call, at an index different
from that of the input; the contents are those of the pure row transform. -/
theorem C8_ref_fresh_storage (store : List (List (List ℚ))) (sid dim : Nat)
    (scale : ℚ) (hdim : 0 < dim) (hsid : sid < store.length) :
    ∃ store3 osid out,
      hadamard_transform_ref_store true store sid dim scale
          = Except.ok (store3, osid, out)
        ∧ store.length ≤ osid
        ∧ osid ≠ sid
        ∧ (∀ i, i < store.length → store3[i]? = store[i]?)
        ∧ out = (store.getD sid []).map (fun r => refRow dim r scale) := by
  have h0 : ¬(dim = 0) := by omega
  simp only [hadamard_transform_ref_store, hadamardImport, if_true, if_neg h0]
  by_cases hpad : dim = 2 ^ Nat.clog 2 dim
  · rw [if_neg (fun hh => hh hpad)]
    refine ⟨_, _, _, rfl, ?_, ?_, ?_, ?_⟩
    · simp
    · simp only [List.length_append, List.length_cons, List.length_nil]
      omega
    · intro i hi
      rw [List.getElem?_append_left (by simp; omega),
        List.getElem?_append_left (by simp; omega)]
    · simp only [List.map_map]
      apply List.map_congr_left
      intro r hr
      rw [refRow_eq_formula, ← hpad, Nat.sub_self]
      simp [Function.comp]
  · rw [if_pos hpad]
    rw [getD_concat_self]
    refine ⟨_, _, _, rfl, ?_, ?_, ?_, ?_⟩
    · simp
    · simp only [List.length_append, List.length_cons, List.length_nil]
      omega
    · intro i hi
      rw [List.getElem?_append_left (by simp; omega),
        List.getElem?_append_left (by simp; omega), List.getElem?_append_left hi]
    · simp only [List.map_map]
      apply List.map_congr_left
      intro r hr
      rw [refRow_eq_formula]
      simp [Function.comp]

/-- C8 witness at store = [[[1, 2]]], sid = 0, dim = 2, scale = 1. -/
theorem C8_ref_fresh_storage_witness :
    ∃ store3 osid out,
      hadamard_transform_ref_store true [[[1, 2]]] 0 2 1
          = Except.ok (store3, osid, out)
        ∧ ([[[(1 : ℚ), 2]]] : List (List (List ℚ))).length ≤ osid
        ∧ osid ≠ 0
        ∧ (∀ i, i < ([[[(1 : ℚ), 2]]] : List (List (List ℚ))).length →
            store3[i]? = ([[[(1 : ℚ), 2]]] : List (List (List ℚ)))[i]?)
        ∧ out = (([[[(1 : ℚ), 2]]] : List (List (List ℚ))).getD 0 []).map
            (fun r => refRow 2 r 1) :=
  C8_ref_fresh_storage [[[1, 2]]] 0 2 1 (by norm_num) (by decide)

end FHT
